import Mathlib

/-!
Verification of the astiencoder workflow/node orchestration core
(`workflow.go`): a shallow embedding of `BaseNode` and `Workflow` and
proofs about their lifecycle, completion-propagation and registry
behaviour.

Modelling conventions:
* Go maps keyed by node name are embedded as duplicate-free `List String`
  of their keys (the stored node values are never inspected through an
  edge by the code under study, only the keys are); map insertion that
  keeps the existing entry is `insertOnce`.
* `sync.Once` is embedded as a consumed/fresh `Bool` flag: `Once.Do f`
  runs `f` exactly when the flag is fresh and consumes it, even when `f`
  returns early.
* A `context.Context` is embedded by two booleans: whether the node holds
  one (`ctxSet` / `cancelSet`) and whether it has been cancelled
  (`ctxCancelled`); the caller-supplied parent context enters `Start` as
  the boolean `ctxErr` (`ctx.Err() != nil`).
* Goroutine bodies and the workflow start routine are embedded as the
  trace of observable actions they perform, in program order; Go `defer`
  statements run after the function body in reverse registration order.
-/

/-- NodeMetadata as in the source: immutable identity of a node. -/
structure NodeMetadata where
  Description : String
  Label : String
  Name : String
deriving DecidableEq, Repr

/-- WorkflowStartGroup: a set of nodes started under one shared sub-task,
with an optional callback. The callback is an opaque function in the
source; only its presence is observable in the model. -/
structure WorkflowStartGroup where
  Callback : Bool
  Nodes : List String
deriving DecidableEq, Repr

/-- WorkflowStartOptions: options a node is started with. The source has
two revisions of this structure (`Groups` used by `Workflow.start`,
`StopWhenNodesAreDone` used by `ChildIsDone`/`ParentIsDone`); the model
carries both fields. -/
structure WorkflowStartOptions where
  StopWhenNodesAreDone : Bool
  Groups : List WorkflowStartGroup
deriving DecidableEq, Repr

/-- Insertion into a Go map modelled on its key set: `m[k] = v` when the
caller first checks `if _, ok := m[k]; ok { return }`, and also
`done[k] = true` (a set). Keeps the list duplicate-free. -/
def insertOnce (l : List String) (k : String) : List String :=
  if k ∈ l then l else l ++ [k]

/-- Insertion step of `sort.Strings`. -/
def insertSorted (x : String) : List String → List String
  | [] => [x]
  | y :: ys => if x ≤ y then x :: y :: ys else y :: insertSorted x ys

/-- sort.Strings: the name-sorted view a node's `Children()`/`Parents()`
return. -/
def sortNames (l : List String) : List String :=
  l.foldr insertSorted []

/-- BaseNode state, field for field from the source: the two `sync.Once`
guards, the cancellable context, the edge maps and the completion sets. -/
structure BaseNode where
  cancelSet : Bool
  children : List String
  childrenDone : List String
  ctxSet : Bool
  ctxCancelled : Bool
  md : NodeMetadata
  o : WorkflowStartOptions
  oStartUsed : Bool
  oStopUsed : Bool
  parents : List String
  parentsDone : List String
deriving DecidableEq, Repr

/-- NewBaseNode: fresh guards, empty maps, zero-valued options. -/
def NewBaseNode (m : NodeMetadata) : BaseNode :=
  { cancelSet := false
    children := []
    childrenDone := []
    ctxSet := false
    ctxCancelled := false
    md := m
    o := { StopWhenNodesAreDone := false, Groups := [] }
    oStartUsed := false
    oStopUsed := false
    parents := []
    parentsDone := [] }

/-- BaseNode.Stop: `oStop.Do` cancels the context when one was created and
replaces `oStart` by a fresh guard; a consumed `oStop` makes it a no-op. -/
def BaseNode.Stop (n : BaseNode) : BaseNode :=
  if n.oStopUsed then n
  else
    { n with
      oStopUsed := true
      ctxCancelled := n.ctxCancelled || n.cancelSet
      oStartUsed := false }

/-- Result of the synchronous part of `BaseNode.Start`: the updated node,
whether `tc()` was called, and whether the exec goroutine was launched. -/
structure StartOutcome where
  node : BaseNode
  taskCreated : Bool
  execLaunched : Bool
deriving DecidableEq, Repr

/-- BaseNode.Start, synchronous part: `oStart.Do` stores the options,
returns early when the inherited context is already cancelled (`ctxErr`),
otherwise creates the task, derives a fresh cancellable context, resets
`oStop` and launches the exec goroutine. The guard is consumed whenever
the `Do` body runs, early return included. -/
def BaseNode.Start (n : BaseNode) (ctxErr : Bool) (o : WorkflowStartOptions) :
    StartOutcome :=
  if n.oStartUsed then ⟨n, false, false⟩
  else
    let n1 := { n with oStartUsed := true, o := o }
    if ctxErr then ⟨n1, false, false⟩
    else
      ⟨{ n1 with
          cancelSet := true
          ctxSet := true
          ctxCancelled := false
          oStopUsed := false }, true, true⟩

/-- BaseNode.AddChild: registers the child under its name; a name already
present is a silent no-op. -/
def BaseNode.AddChild (n : BaseNode) (childName : String) : BaseNode :=
  { n with children := insertOnce n.children childName }

/-- BaseNode.AddParent: registers the parent under its name; a name
already present is a silent no-op. -/
def BaseNode.AddParent (n : BaseNode) (parentName : String) : BaseNode :=
  { n with parents := insertOnce n.parents parentName }

/-- BaseNode.ChildIsDone: an unknown name is ignored; otherwise the name
is recorded in `childrenDone`, and when `StopWhenNodesAreDone` is set and
every known child is done the node stops itself. -/
def BaseNode.ChildIsDone (n : BaseNode) (m : NodeMetadata) : BaseNode :=
  if m.Name ∈ n.children then
    let n1 := { n with childrenDone := insertOnce n.childrenDone m.Name }
    if n1.o.StopWhenNodesAreDone && (n1.childrenDone.length == n1.children.length)
    then n1.Stop else n1
  else n

/-- BaseNode.ParentIsDone: the mirror of `ChildIsDone` on the parent side. -/
def BaseNode.ParentIsDone (n : BaseNode) (m : NodeMetadata) : BaseNode :=
  if m.Name ∈ n.parents then
    let n1 := { n with parentsDone := insertOnce n.parentsDone m.Name }
    if n1.o.StopWhenNodesAreDone && (n1.parentsDone.length == n1.parents.length)
    then n1.Stop else n1
  else n

/-- BaseNode.Children: the name-sorted snapshot of the children map. -/
def BaseNode.Children (n : BaseNode) : List String :=
  sortNames n.children

/-- BaseNode.Parents: the name-sorted snapshot of the parents map. -/
def BaseNode.Parents (n : BaseNode) : List String :=
  sortNames n.parents

/-- ConnectNodes: `parent.AddChild(child); child.AddParent(parent)`. -/
def ConnectNodes (parent child : BaseNode) : BaseNode × BaseNode :=
  (parent.AddChild child.md.Name, child.AddParent parent.md.Name)

theorem mem_insertOnce_self (l : List String) (k : String) :
    k ∈ insertOnce l k := by
  by_cases h : k ∈ l <;> simp [insertOnce, h]

theorem mem_insertOnce (l : List String) (k x : String) :
    x ∈ insertOnce l k ↔ x = k ∨ x ∈ l := by
  by_cases h : k ∈ l <;> simp [insertOnce, h] <;> aesop

theorem insertOnce_of_mem {l : List String} {k : String} (h : k ∈ l) :
    insertOnce l k = l := by
  simp [insertOnce, h]

theorem nodup_insertOnce {l : List String} (k : String) (h : l.Nodup) :
    (insertOnce l k).Nodup := by
  by_cases hk : k ∈ l
  · simp [insertOnce, hk, h]
  · simp only [insertOnce, if_neg hk]
    rw [List.nodup_append]
    exact ⟨h, List.nodup_singleton k, by simpa using hk⟩

theorem mem_insertSorted (x y : String) (l : List String) :
    y ∈ insertSorted x l ↔ y = x ∨ y ∈ l := by
  induction l with
  | nil => simp [insertSorted]
  | cons z zs ih =>
      by_cases h : x ≤ z
      · simp [insertSorted, h, ih]
      · simp [insertSorted, h, ih]
        tauto

theorem mem_sortNames (x : String) (l : List String) :
    x ∈ sortNames l ↔ x ∈ l := by
  induction l with
  | nil => simp [sortNames]
  | cons y ys ih =>
      simp only [sortNames, List.foldr] at ih ⊢
      rw [mem_insertSorted, ih]
      simp

/-- C1: BaseNode.Start is idempotent — a call on an already-started node
changes nothing, creates no task and launches no exec; a first call
launches the exec exactly once for the activation cycle (any further call
before Stop is a no-op); and a first call whose inherited scope is already
cancelled creates no task and never invokes the exec function. -/
theorem c1_start_idempotent (n : BaseNode) (ctxErr : Bool)
    (o o2 : WorkflowStartOptions) :
    (n.oStartUsed = true → n.Start ctxErr o = ⟨n, false, false⟩) ∧
    (n.oStartUsed = false →
      (n.Start false o).execLaunched = true ∧
      (n.Start false o).node.Start ctxErr o2 =
        ⟨(n.Start false o).node, false, false⟩) ∧
    (n.oStartUsed = false →
      (n.Start true o).taskCreated = false ∧
      (n.Start true o).execLaunched = false) := by
  refine ⟨fun h => ?_, fun h => ⟨?_, ?_⟩, fun h => ⟨?_, ?_⟩⟩ <;>
    simp [BaseNode.Start, h]

/-- C10 counterexample: on a node that has completed one activation cycle
(start succeeded, then the deferred Stop ran, consuming the stop guard), a
Start under a cancelled scope consumes the start guard, but the subsequent
Stop is a no-op — it does not reset the start guard — so the node is NOT
startable again, contradicting the claim as stated. -/
theorem c10_counterexample :
    ((((NewBaseNode ⟨"d", "l", "a"⟩).Start false ⟨false, []⟩).node.Stop.Start
        true ⟨false, []⟩).node.Stop.Start false ⟨false, []⟩).execLaunched
      = false ∧
    ((((NewBaseNode ⟨"d", "l", "a"⟩).Start false ⟨false, []⟩).node.Stop.Start
        true ⟨false, []⟩).node.Stop =
      (((NewBaseNode ⟨"d", "l", "a"⟩).Start false ⟨false, []⟩).node.Stop.Start
        true ⟨false, []⟩).node) := by
  decide

/-- C10 amended: a Start under an already-cancelled inherited scope runs no
exec and creates no task, yet consumes the start guard and stores the
options, so every subsequent Start — even under a live scope — is a no-op;
when the node's stop guard is fresh, Stop then resets the start guard and
the node is startable again; when the stop guard was already consumed
(e.g. after a completed activation cycle), Stop is a no-op and the node
stays unstartable. -/
theorem c10_cancelled_start_consumes_guard (n : BaseNode)
    (o o2 o3 : WorkflowStartOptions) (ctxErr : Bool)
    (h : n.oStartUsed = false) :
    (n.Start true o).taskCreated = false ∧
    (n.Start true o).execLaunched = false ∧
    (n.Start true o).node.oStartUsed = true ∧
    (n.Start true o).node.o = o ∧
    ((n.Start true o).node.Start ctxErr o2 =
      ⟨(n.Start true o).node, false, false⟩) ∧
    (n.oStopUsed = false →
      (n.Start true o).node.Stop.oStartUsed = false ∧
      ((n.Start true o).node.Stop.Start false o3).execLaunched = true) ∧
    (n.oStopUsed = true →
      (n.Start true o).node.Stop = (n.Start true o).node ∧
      ((n.Start true o).node.Stop.Start false o3).execLaunched = false) := by
  refine ⟨?_, ?_, ?_, ?_, ?_, fun hs => ⟨?_, ?_⟩, fun hs => ⟨?_, ?_⟩⟩ <;>
    simp [BaseNode.Start, BaseNode.Stop, h] <;> simp [hs]

/-- Witness for `c10_cancelled_start_consumes_guard` at a concrete fresh
node. -/
theorem c10_cancelled_start_consumes_guard_witness :
    ((NewBaseNode ⟨"d", "l", "a"⟩).Start true ⟨false, []⟩).execLaunched
        = false ∧
    ((NewBaseNode ⟨"d", "l", "a"⟩).Start true
        ⟨false, []⟩).node.oStartUsed = true ∧
    (((NewBaseNode ⟨"d", "l", "a"⟩).Start true
        ⟨false, []⟩).node.Stop.Start false ⟨false, []⟩).execLaunched = true := by
  refine ⟨(c10_cancelled_start_consumes_guard (NewBaseNode ⟨"d", "l", "a"⟩)
      ⟨false, []⟩ ⟨false, []⟩ ⟨false, []⟩ false rfl).2.1,
    (c10_cancelled_start_consumes_guard (NewBaseNode ⟨"d", "l", "a"⟩)
      ⟨false, []⟩ ⟨false, []⟩ ⟨false, []⟩ false rfl).2.2.1,
    ((c10_cancelled_start_consumes_guard (NewBaseNode ⟨"d", "l", "a"⟩)
      ⟨false, []⟩ ⟨false, []⟩ ⟨false, []⟩ false rfl).2.2.2.2.2.1 rfl).2⟩

/-- Witness for `c1_start_idempotent` at a concrete fresh node. -/
theorem c1_start_idempotent_witness :
    let n := NewBaseNode ⟨"d", "l", "a"⟩
    let o : WorkflowStartOptions := ⟨false, []⟩
    (n.Start false o).execLaunched = true ∧
    (n.Start false o).node.Start false o =
      ⟨(n.Start false o).node, false, false⟩ ∧
    (n.Start true o).taskCreated = false ∧
    (n.Start true o).execLaunched = false := by
  refine ⟨((c1_start_idempotent (NewBaseNode ⟨"d", "l", "a"⟩) false
      ⟨false, []⟩ ⟨false, []⟩).2.1 rfl).1,
    ((c1_start_idempotent (NewBaseNode ⟨"d", "l", "a"⟩) false
      ⟨false, []⟩ ⟨false, []⟩).2.1 rfl).2,
    ((c1_start_idempotent (NewBaseNode ⟨"d", "l", "a"⟩) false
      ⟨false, []⟩ ⟨false, []⟩).2.2 rfl).1,
    ((c1_start_idempotent (NewBaseNode ⟨"d", "l", "a"⟩) false
      ⟨false, []⟩ ⟨false, []⟩).2.2 rfl).2⟩

/-- C9: after `ConnectNodes p c` the children of `p` contain `c` and the
parents of `c` contain `p` (also through the sorted `Children`/`Parents`
views); a second `ConnectNodes p c` is a no-op, and when the edge maps are
duplicate-free (as every map built through `AddChild`/`AddParent` is) the
edge exists exactly once in each direction. -/
theorem c9_connect_nodes (p c : BaseNode) :
    c.md.Name ∈ (ConnectNodes p c).1.children ∧
    p.md.Name ∈ (ConnectNodes p c).2.parents ∧
    c.md.Name ∈ (ConnectNodes p c).1.Children ∧
    p.md.Name ∈ (ConnectNodes p c).2.Parents ∧
    ConnectNodes (ConnectNodes p c).1 (ConnectNodes p c).2 =
      ConnectNodes p c ∧
    (p.children.Nodup →
      (ConnectNodes p c).1.children.count c.md.Name = 1) ∧
    (c.parents.Nodup →
      (ConnectNodes p c).2.parents.count p.md.Name = 1) := by
  refine ⟨mem_insertOnce_self _ _, mem_insertOnce_self _ _, ?_, ?_, ?_, ?_, ?_⟩
  · rw [BaseNode.Children, mem_sortNames]
    exact mem_insertOnce_self _ _
  · rw [BaseNode.Parents, mem_sortNames]
    exact mem_insertOnce_self _ _
  · simp [ConnectNodes, BaseNode.AddChild, BaseNode.AddParent,
      insertOnce_of_mem (mem_insertOnce_self p.children c.md.Name),
      insertOnce_of_mem (mem_insertOnce_self c.parents p.md.Name)]
  · intro h
    exact List.count_eq_one_of_mem (nodup_insertOnce _ h)
      (mem_insertOnce_self _ _)
  · intro h
    exact List.count_eq_one_of_mem (nodup_insertOnce _ h)
      (mem_insertOnce_self _ _)

/-- Witness for `c9_connect_nodes`: the duplicate-free hypotheses hold at
two concrete freshly constructed nodes. -/
theorem c9_connect_nodes_witness :
    (ConnectNodes (NewBaseNode ⟨"", "", "p"⟩)
      (NewBaseNode ⟨"", "", "c"⟩)).1.children.count "c" = 1 ∧
    (ConnectNodes (NewBaseNode ⟨"", "", "p"⟩)
      (NewBaseNode ⟨"", "", "c"⟩)).2.parents.count "p" = 1 := by
  refine ⟨(c9_connect_nodes (NewBaseNode ⟨"", "", "p"⟩)
      (NewBaseNode ⟨"", "", "c"⟩)).2.2.2.2.2.1 (by decide),
    (c9_connect_nodes (NewBaseNode ⟨"", "", "p"⟩)
      (NewBaseNode ⟨"", "", "c"⟩)).2.2.2.2.2.2 (by decide)⟩

theorem nodup_sub_pair_length {A B : String} (hAB : A ≠ B) (l : List String)
    (hnd : l.Nodup) (hsub : ∀ x ∈ l, x = A ∨ x = B) :
    l.length = 2 ↔ (A ∈ l ∧ B ∈ l) := by
  constructor
  · intro hlen
    constructor
    · by_contra hA
      have hsubB : l ⊆ [B] := by
        intro x hx
        rcases hsub x hx with rfl | rfl
        · exact absurd hx hA
        · simp
      have := (List.subperm_of_subset hnd hsubB).length_le
      simp at this
      omega
    · by_contra hB
      have hsubA : l ⊆ [A] := by
        intro x hx
        rcases hsub x hx with rfl | rfl
        · simp
        · exact absurd hx hB
      have := (List.subperm_of_subset hnd hsubA).length_le
      simp at this
      omega
  · rintro ⟨hA, hB⟩
    have h1 : [A, B] ⊆ l := by
      intro x hx
      simp at hx
      rcases hx with rfl | rfl <;> assumption
    have h2 : l ⊆ [A, B] := by
      intro x hx
      simpa using hsub x hx
    have hup : ([A, B] : List String).Nodup := by simp [hAB]
    have hle1 := (List.subperm_of_subset hup h1).length_le
    have hle2 := (List.subperm_of_subset hnd h2).length_le
    simp at hle1 hle2
    omega

/-- Unfolding of `ChildIsDone` with the Bool guard expressed in Prop. -/
theorem childIsDone_eq (s : BaseNode) (m : NodeMetadata) :
    s.ChildIsDone m =
      if m.Name ∈ s.children then
        (if s.o.StopWhenNodesAreDone = true ∧
            (insertOnce s.childrenDone m.Name).length = s.children.length
         then ({ s with childrenDone := insertOnce s.childrenDone m.Name }
            : BaseNode).Stop
         else { s with childrenDone := insertOnce s.childrenDone m.Name })
      else s := by
  simp only [BaseNode.ChildIsDone, Bool.and_eq_true, beq_iff_eq]

/-- Invariant preservation for one `ChildIsDone` step on a node whose
child edge set is exactly {A, B}. -/
theorem childIsDone_step {A B : String} (hAB : A ≠ B) (s : BaseNode)
    (m : NodeMetadata)
    (hch : s.children = [A, B]) (ho : s.o.StopWhenNodesAreDone = true)
    (hnd : s.childrenDone.Nodup)
    (hsub : ∀ x ∈ s.childrenDone, x = A ∨ x = B)
    (hinv : s.oStopUsed = true ↔
      (A ∈ s.childrenDone ∧ B ∈ s.childrenDone)) :
    (s.ChildIsDone m).children = [A, B] ∧
    (s.ChildIsDone m).o.StopWhenNodesAreDone = true ∧
    (s.ChildIsDone m).childrenDone.Nodup ∧
    (∀ x ∈ (s.ChildIsDone m).childrenDone, x = A ∨ x = B) ∧
    ((s.ChildIsDone m).oStopUsed = true ↔
      (A ∈ (s.ChildIsDone m).childrenDone ∧
       B ∈ (s.ChildIsDone m).childrenDone)) ∧
    (∀ x, x ∈ (s.ChildIsDone m).childrenDone ↔
      (x ∈ s.childrenDone ∨ (x = m.Name ∧ m.Name ∈ s.children))) := by
  rw [childIsDone_eq]
  by_cases hmem : m.Name ∈ s.children
  · rw [if_pos hmem]
    have hnd' : (insertOnce s.childrenDone m.Name).Nodup :=
      nodup_insertOnce _ hnd
    have hsub' : ∀ x ∈ insertOnce s.childrenDone m.Name, x = A ∨ x = B := by
      intro x hx
      rcases (mem_insertOnce _ _ _).mp hx with rfl | hx'
      · rw [hch] at hmem
        simpa using hmem
      · exact hsub x hx'
    have hlen : (insertOnce s.childrenDone m.Name).length = 2 ↔
        (A ∈ insertOnce s.childrenDone m.Name ∧
         B ∈ insertOnce s.childrenDone m.Name) :=
      nodup_sub_pair_length hAB _ hnd' hsub'
    have hmemNew : ∀ x, x ∈ insertOnce s.childrenDone m.Name ↔
        (x ∈ s.childrenDone ∨ (x = m.Name ∧ m.Name ∈ s.children)) := by
      intro x
      rw [mem_insertOnce]
      constructor
      · rintro (rfl | hx)
        · exact Or.inr ⟨rfl, hmem⟩
        · exact Or.inl hx
      · rintro (hx | ⟨rfl, _⟩)
        · exact Or.inr hx
        · exact Or.inl rfl
    by_cases hfire : s.o.StopWhenNodesAreDone = true ∧
        (insertOnce s.childrenDone m.Name).length = s.children.length
    · rw [if_pos hfire]
      have hboth := hlen.mp (by rw [hfire.2, hch]; rfl)
      unfold BaseNode.Stop
      by_cases hstp : s.oStopUsed = true
      · simp only [hstp, if_pos]
        exact ⟨hch, ho, hnd', hsub', by simpa [hstp] using hboth, hmemNew⟩
      · simp only [hstp, Bool.false_eq_true, if_neg, Bool.not_eq_true] at *
        simp only [hstp, Bool.false_eq_true, if_false]
        exact ⟨hch, ho, hnd', hsub', by simpa using hboth, hmemNew⟩
    · rw [if_neg hfire]
      have hnboth : ¬(A ∈ insertOnce s.childrenDone m.Name ∧
          B ∈ insertOnce s.childrenDone m.Name) := by
        intro hb
        exact hfire ⟨ho, by rw [hch]; exact hlen.mpr hb⟩
      refine ⟨hch, ho, hnd', hsub', ?_, hmemNew⟩
      constructor
      · intro hstp
        rcases hinv.mp hstp with ⟨hA, hB⟩
        exact ⟨(mem_insertOnce _ _ _).mpr (Or.inr hA),
          (mem_insertOnce _ _ _).mpr (Or.inr hB)⟩
      · intro hb
        exact absurd hb hnboth
  · rw [if_neg hmem]
    refine ⟨hch, ho, hnd, hsub, hinv, ?_⟩
    intro x
    constructor
    · exact fun hx => Or.inl hx
    · rintro (hx | ⟨rfl, hc⟩)
      · exact hx
      · exact absurd hc hmem

/-- Folding `ChildIsDone` notifications over a node with child edge set
{A, B}: the stop guard fires exactly when both A and B have been seen. -/
theorem childIsDone_fold {A B : String} (hAB : A ≠ B)
    (l : List NodeMetadata) :
    ∀ (s : BaseNode),
      s.children = [A, B] → s.o.StopWhenNodesAreDone = true →
      s.childrenDone.Nodup → (∀ x ∈ s.childrenDone, x = A ∨ x = B) →
      (s.oStopUsed = true ↔ (A ∈ s.childrenDone ∧ B ∈ s.childrenDone)) →
      ((l.foldl BaseNode.ChildIsDone s).oStopUsed = true ↔
        ((A ∈ s.childrenDone ∨ A ∈ l.map fun m => m.Name) ∧
         (B ∈ s.childrenDone ∨ B ∈ l.map fun m => m.Name))) := by
  induction l with
  | nil =>
      intro s hch ho hnd hsub hinv
      simpa using hinv
  | cons m rest ihl =>
      intro s hch ho hnd hsub hinv
      obtain ⟨h1, h2, h3, h4, h5, h6⟩ :=
        childIsDone_step hAB s m hch ho hnd hsub hinv
      have ih := ihl (s.ChildIsDone m) h1 h2 h3 h4 h5
      simp only [List.foldl_cons, List.map_cons, List.mem_cons]
      rw [ih]
      have hAmem : (A = m.Name ∧ m.Name ∈ s.children) ↔ A = m.Name := by
        constructor
        · exact fun h => h.1
        · intro h
          refine ⟨h, ?_⟩
          rw [hch, ← h]
          simp
      have hBmem : (B = m.Name ∧ m.Name ∈ s.children) ↔ B = m.Name := by
        constructor
        · exact fun h => h.1
        · intro h
          refine ⟨h, ?_⟩
          rw [hch, ← h]
          simp
      rw [h6 A, h6 B, hAmem, hBmem]
      simp only [or_assoc]

/-- Test configuration for the auto-stop property: a base node with child
edge set {A, B}, started successfully with `StopWhenNodesAreDone`. -/
def autoStopNode (A B : String) : BaseNode :=
  ((((NewBaseNode ⟨"", "", "root"⟩).AddChild A).AddChild B).Start false
    ⟨true, []⟩).node

theorem autoStopNode_children {A B : String} (hAB : A ≠ B) :
    (autoStopNode A B).children = [A, B] := by
  simp [autoStopNode, NewBaseNode, BaseNode.AddChild, BaseNode.Start,
    insertOnce, Ne.symm hAB]

theorem autoStopNode_fields (A B : String) :
    (autoStopNode A B).o.StopWhenNodesAreDone = true ∧
    (autoStopNode A B).childrenDone = [] ∧
    (autoStopNode A B).oStopUsed = false := by
  refine ⟨?_, ?_, ?_⟩ <;>
    simp [autoStopNode, NewBaseNode, BaseNode.AddChild, BaseNode.Start]

/-- C3: for a node with auto-stop enabled and child edge set {A, B},
`ChildIsDone` notifications with unknown names are ignored (no state
change); after any sequence of notifications the node has stopped itself
if and only if notifications for both A and B were received; any number of
notifications for A alone never triggers the stop. -/
theorem c3_auto_stop (A B : String) (hAB : A ≠ B) :
    (∀ (n : BaseNode) (m : NodeMetadata), m.Name ∉ n.children →
      n.ChildIsDone m = n) ∧
    (∀ l : List NodeMetadata,
      ((l.foldl BaseNode.ChildIsDone (autoStopNode A B)).oStopUsed = true ↔
        ((A ∈ l.map fun m => m.Name) ∧ (B ∈ l.map fun m => m.Name)))) ∧
    (∀ l : List NodeMetadata, (∀ m ∈ l, m.Name = A) →
      (l.foldl BaseNode.ChildIsDone (autoStopNode A B)).oStopUsed = false) := by
  obtain ⟨ho, hcd, hstp⟩ := autoStopNode_fields A B
  have hiff : ∀ l : List NodeMetadata,
      ((l.foldl BaseNode.ChildIsDone (autoStopNode A B)).oStopUsed = true ↔
        ((A ∈ l.map fun m => m.Name) ∧ (B ∈ l.map fun m => m.Name))) := by
    intro l
    have := childIsDone_fold hAB l (autoStopNode A B)
      (autoStopNode_children hAB) ho (by rw [hcd]; exact List.nodup_nil)
      (by rw [hcd]; intro x hx; simp at hx) (by rw [hcd, hstp]; simp)
    simpa [hcd] using this
  refine ⟨?_, hiff, ?_⟩
  · intro n m h
    rw [childIsDone_eq, if_neg h]
  · intro l hl
    by_contra h
    have hT : (l.foldl BaseNode.ChildIsDone (autoStopNode A B)).oStopUsed
        = true := by
      revert h
      cases (l.foldl BaseNode.ChildIsDone (autoStopNode A B)).oStopUsed <;>
        simp
    obtain ⟨-, hB⟩ := (hiff l).mp hT
    obtain ⟨m, hm, hmB⟩ := List.mem_map.mp hB
    exact hAB (by rw [← hl m hm, hmB])

/-- Witness for `c3_auto_stop` at concrete child names and notification
sequences. -/
theorem c3_auto_stop_witness :
    (([⟨"", "", "A"⟩, ⟨"", "", "B"⟩] : List NodeMetadata).foldl
      BaseNode.ChildIsDone (autoStopNode "A" "B")).oStopUsed = true ∧
    (([⟨"", "", "A"⟩, ⟨"", "", "A"⟩, ⟨"", "", "A"⟩] : List NodeMetadata).foldl
      BaseNode.ChildIsDone (autoStopNode "A" "B")).oStopUsed = false :=
  ⟨((c3_auto_stop "A" "B" (by decide)).2.1 _).mpr ⟨by decide, by decide⟩,
   (c3_auto_stop "A" "B" (by decide)).2.2 _ (by decide)⟩

/-- Observable actions of the goroutine launched by `BaseNode.Start`. -/
inductive NodeAction where
  | execRun : NodeAction
  | parentIsDoneTo : String → NodeAction
  | childIsDoneTo : String → NodeAction
  | stopSelf : NodeAction
  | taskDone : NodeAction
deriving DecidableEq, Repr

/-- Trace of the goroutine body of `BaseNode.Start`, in execution order:
the exec function runs, then each child is notified `ParentIsDone`, then
each parent is notified `ChildIsDone` (both loops over the name-sorted
snapshots), and then the two deferred calls run in reverse registration
order: `n.Stop()` first, `t.Done()` last. -/
def BaseNode.execTrace (n : BaseNode) : List NodeAction :=
  [NodeAction.execRun]
    ++ n.Children.map NodeAction.parentIsDoneTo
    ++ n.Parents.map NodeAction.childIsDoneTo
    ++ [NodeAction.stopSelf, NodeAction.taskDone]

/-- Index of the first occurrence of an element in a list. -/
def idxOf {α : Type} [DecidableEq α] (a : α) : List α → Option Nat
  | [] => none
  | x :: xs => if x = a then some 0 else (idxOf a xs).map (· + 1)

/-- Boolean test that the first occurrence of `a` is strictly before the
first occurrence of `b` (both must occur). -/
def occursBeforeB {α : Type} [DecidableEq α] (tr : List α) (a b : α) : Bool :=
  match idxOf a tr, idxOf b tr with
  | some i, some j => decide (i < j)
  | _, _ => false

/-- Proposition form of `occursBeforeB`. -/
def occursBefore {α : Type} [DecidableEq α] (tr : List α) (a b : α) : Prop :=
  occursBeforeB tr a b = true

theorem idxOf_lt_of_mem {α : Type} [DecidableEq α] {a : α} :
    ∀ {l : List α}, a ∈ l → ∃ i, idxOf a l = some i ∧ i < l.length := by
  intro l
  induction l with
  | nil => intro h; simp at h
  | cons x xs ih =>
      intro h
      by_cases hx : x = a
      · exact ⟨0, by simp [idxOf, hx], by simp⟩
      · have ha : a ∈ xs := by
          rcases List.mem_cons.mp h with rfl | h'
          · exact absurd rfl hx
          · exact h'
        obtain ⟨i, hi, hlt⟩ := ih ha
        exact ⟨i + 1, by simp [idxOf, hx, hi], by simp; omega⟩

theorem idxOf_append_right {α : Type} [DecidableEq α] {b : α} :
    ∀ {l1 : List α} (l2 : List α), b ∉ l1 →
      idxOf b (l1 ++ l2) = (idxOf b l2).map (· + l1.length) := by
  intro l1
  induction l1 with
  | nil => intro l2 _; simp [Option.map_id']
  | cons x xs ih =>
      intro l2 hb
      have hx : ¬x = b := fun h => hb (by simp [h])
      have hb' : b ∉ xs := fun h => hb (by simp [h])
      rw [List.cons_append]
      show (if x = b then some 0 else (idxOf b (xs ++ l2)).map (· + 1)) = _
      rw [if_neg hx, ih l2 hb']
      cases idxOf b l2 with
      | none => simp
      | some j => rfl

theorem idxOf_mem_append {α : Type} [DecidableEq α] {a : α}
    {l1 : List α} (l2 : List α) (ha : a ∈ l1) :
    ∃ i, idxOf a (l1 ++ l2) = some i ∧ i < l1.length := by
  induction l1 with
  | nil => simp at ha
  | cons x xs ih =>
      by_cases hx : x = a
      · exact ⟨0, by simp [idxOf, hx], by simp⟩
      · have ha' : a ∈ xs := by
          rcases List.mem_cons.mp ha with rfl | h'
          · exact absurd rfl hx
          · exact h'
        obtain ⟨i, hi, hlt⟩ := ih ha'
        exact ⟨i + 1, by simp [idxOf, hx, hi], by simp; omega⟩

/-- Key ordering principle: an element of the left part of an append comes
before an element that occurs only in the right part. -/
theorem occursBefore_append {α : Type} [DecidableEq α] {l1 l2 : List α}
    {a b : α} (ha : a ∈ l1) (hb1 : b ∉ l1) (hb2 : b ∈ l2) :
    occursBefore (l1 ++ l2) a b := by
  obtain ⟨i, hi, hilt⟩ := idxOf_mem_append l2 ha
  obtain ⟨j, hj, -⟩ := idxOf_lt_of_mem hb2
  have hbj : idxOf b (l1 ++ l2) = some (j + l1.length) := by
    rw [idxOf_append_right l2 hb1, hj]
    rfl
  unfold occursBefore occursBeforeB
  rw [hi, hbj]
  simp
  omega

theorem occursBefore_trans {α : Type} [DecidableEq α] {tr : List α}
    {a b c : α} (h1 : occursBefore tr a b) (h2 : occursBefore tr b c) :
    occursBefore tr a c := by
  unfold occursBefore occursBeforeB at *
  cases ha : idxOf a tr <;> cases hb : idxOf b tr <;>
    cases hc : idxOf c tr <;> simp_all
  omega

/-- C2 counterexample: for a concrete node with one child "c" and one
parent "p", the goroutine trace does contain the self-stop, the task-done
mark and the child notification, but neither the self-stop nor the
task-done mark occurs before the child notification — the deferred
`Stop`/`Done` calls run after the notification loops, so the order claimed
(Stop, then done, then notify children, then notify parents) is false. -/
theorem c2_counterexample :
    NodeAction.stopSelf ∈
      (((NewBaseNode ⟨"", "", "n"⟩).AddChild "c").AddParent "p").execTrace ∧
    NodeAction.parentIsDoneTo "c" ∈
      (((NewBaseNode ⟨"", "", "n"⟩).AddChild "c").AddParent "p").execTrace ∧
    occursBeforeB
      (((NewBaseNode ⟨"", "", "n"⟩).AddChild "c").AddParent "p").execTrace
      NodeAction.stopSelf (NodeAction.parentIsDoneTo "c") = false ∧
    occursBeforeB
      (((NewBaseNode ⟨"", "", "n"⟩).AddChild "c").AddParent "p").execTrace
      NodeAction.taskDone (NodeAction.parentIsDoneTo "c") = false := by
  decide

/-- C2 amended: when the exec function launched by `Start` returns, the
completion steps happen in this order: every child is notified that its
parent is done, then every parent is notified that its child is done,
then the node's own `Stop` is invoked, and then the tracked unit is
marked done. -/
theorem c2_completion_order (n : BaseNode) :
    (∀ c ∈ n.Children,
      occursBefore n.execTrace NodeAction.execRun
        (NodeAction.parentIsDoneTo c) ∧
      occursBefore n.execTrace (NodeAction.parentIsDoneTo c)
        NodeAction.stopSelf) ∧
    (∀ p ∈ n.Parents,
      occursBefore n.execTrace (NodeAction.childIsDoneTo p)
        NodeAction.stopSelf) ∧
    (∀ c ∈ n.Children, ∀ p ∈ n.Parents,
      occursBefore n.execTrace (NodeAction.parentIsDoneTo c)
        (NodeAction.childIsDoneTo p)) ∧
    occursBefore n.execTrace NodeAction.stopSelf NodeAction.taskDone := by
  have e1 : n.execTrace =
      [NodeAction.execRun] ++
        (n.Children.map NodeAction.parentIsDoneTo ++
          (n.Parents.map NodeAction.childIsDoneTo ++
            [NodeAction.stopSelf, NodeAction.taskDone])) := by
    simp [BaseNode.execTrace]
  have e2 : n.execTrace =
      ([NodeAction.execRun] ++ n.Children.map NodeAction.parentIsDoneTo ++
          n.Parents.map NodeAction.childIsDoneTo) ++
        [NodeAction.stopSelf, NodeAction.taskDone] := by
    simp [BaseNode.execTrace]
  have e3 : n.execTrace =
      ([NodeAction.execRun] ++ n.Children.map NodeAction.parentIsDoneTo) ++
        (n.Parents.map NodeAction.childIsDoneTo ++
          [NodeAction.stopSelf, NodeAction.taskDone]) := by
    simp [BaseNode.execTrace]
  have e4 : n.execTrace =
      ([NodeAction.execRun] ++ n.Children.map NodeAction.parentIsDoneTo ++
          n.Parents.map NodeAction.childIsDoneTo ++ [NodeAction.stopSelf]) ++
        [NodeAction.taskDone] := by
    simp [BaseNode.execTrace]
  refine ⟨fun c hc => ⟨?_, ?_⟩, fun p hp => ?_, fun c hc p hp => ?_, ?_⟩
  · rw [e1]
    refine occursBefore_append (by simp) (by simp) ?_
    simp only [List.mem_append, List.mem_map]
    exact Or.inl ⟨c, hc, rfl⟩
  · rw [e2]
    refine occursBefore_append ?_ (by simp) (by simp)
    simp only [List.mem_append, List.mem_map]
    exact Or.inl (Or.inr ⟨c, hc, rfl⟩)
  · rw [e2]
    refine occursBefore_append ?_ (by simp) (by simp)
    simp only [List.mem_append, List.mem_map]
    exact Or.inr ⟨p, hp, rfl⟩
  · rw [e3]
    refine occursBefore_append ?_ (by simp) ?_
    · simp only [List.mem_append, List.mem_map]
      exact Or.inr ⟨c, hc, rfl⟩
    · simp only [List.mem_append, List.mem_map]
      exact Or.inl ⟨p, hp, rfl⟩
  · rw [e4]
    exact occursBefore_append (by simp) (by simp) (by simp)

/-- Witness for `c2_completion_order` at a concrete node with one child
and one parent. -/
theorem c2_completion_order_witness :
    occursBefore
      (((NewBaseNode ⟨"", "", "n"⟩).AddChild "c").AddParent "p").execTrace
      (NodeAction.parentIsDoneTo "c") NodeAction.stopSelf ∧
    occursBefore
      (((NewBaseNode ⟨"", "", "n"⟩).AddChild "c").AddParent "p").execTrace
      (NodeAction.parentIsDoneTo "c") (NodeAction.childIsDoneTo "p") ∧
    occursBefore
      (((NewBaseNode ⟨"", "", "n"⟩).AddChild "c").AddParent "p").execTrace
      NodeAction.stopSelf NodeAction.taskDone :=
  ⟨((c2_completion_order
      (((NewBaseNode ⟨"", "", "n"⟩).AddChild "c").AddParent "p")).1 "c"
      (by decide)).2,
   (c2_completion_order
      (((NewBaseNode ⟨"", "", "n"⟩).AddChild "c").AddParent "p")).2.2.1 "c"
      (by decide) "p" (by decide),
   (c2_completion_order
      (((NewBaseNode ⟨"", "", "n"⟩).AddChild "c").AddParent "p")).2.2.2⟩

/-- Tree view of a node of the workflow graph: its name and its child
subtrees (the workflow walks the graph as a tree from the root). -/
inductive NTree where
  | node : String → List NTree → NTree
deriving Repr

/-- Name of a tree node (its `Metadata().Name`). -/
def NTree.name : NTree → String
  | .node nm _ => nm

/-- Child subtrees of a tree node (its children map's values). -/
def NTree.children : NTree → List NTree
  | .node _ cs => cs

/-- Insertion step of sorting trees by node name, as `Children()` does. -/
def insTreeSorted (t : NTree) : List NTree → List NTree
  | [] => [t]
  | u :: us => if t.name ≤ u.name then t :: u :: us else u :: insTreeSorted t us

/-- Name-sorted view of a list of trees: the order `Children()` yields. -/
def sortTreesByName (l : List NTree) : List NTree :=
  l.foldr insTreeSorted []

theorem sizeOf_insTreeSorted (t : NTree) (l : List NTree) :
    sizeOf (insTreeSorted t l) = 1 + sizeOf t + sizeOf l := by
  induction l with
  | nil => simp [insTreeSorted]
  | cons u us ih =>
      by_cases h : t.name ≤ u.name
      · simp [insTreeSorted, h, ih]
      · simp [insTreeSorted, h, ih]
        omega

theorem sizeOf_sortTreesByName (l : List NTree) :
    sizeOf (sortTreesByName l) = sizeOf l := by
  induction l with
  | nil => rfl
  | cons t ts ih =>
      show sizeOf (insTreeSorted t (sortTreesByName ts)) = sizeOf (t :: ts)
      rw [sizeOf_insTreeSorted, ih]
      simp

theorem sizeOf_children_lt_sizeOf (t : NTree) :
    sizeOf t.children < sizeOf t := by
  cases t with
  | node nm cs =>
      simp [NTree.children]

/-- Go map update `m[k] = v` on an association list: overwrites the
existing entry for `k` or appends a new one. -/
def mapUpsert (k : String) (v : NTree) :
    List (String × NTree) → List (String × NTree)
  | [] => [(k, v)]
  | (k1, v1) :: rest =>
      if k1 = k then (k, v) :: rest else (k1, v1) :: mapUpsert k v rest

/-- Go map read `m[k]` on an association list. -/
def mapLookup (k : String) : List (String × NTree) → Option NTree
  | [] => none
  | (k1, v) :: rest => if k1 = k then some v else mapLookup k rest

/-- Workflow.indexNodesFunc: for each node, writes it into the registry
under its name, then recurses into its (name-sorted) children. The
registry passed in is the workflow's existing map — it is never cleared. -/
def indexNodesFunc (ts : List NTree) (m : List (String × NTree)) :
    List (String × NTree) :=
  match ts with
  | [] => m
  | t :: rest =>
      indexNodesFunc rest
        (indexNodesFunc (sortTreesByName t.children) (mapUpsert t.name t m))
termination_by sizeOf ts
decreasing_by
  · rw [sizeOf_sortTreesByName]
    simp only [List.cons.sizeOf_spec]
    exact lt_of_lt_of_le (sizeOf_children_lt_sizeOf _) (by omega)
  · simp only [List.cons.sizeOf_spec]
    omega

/-- Names reachable by the indexing walk, in the same recursion pattern. -/
def reachNames (ts : List NTree) : List String :=
  match ts with
  | [] => []
  | t :: rest =>
      t.name :: (reachNames (sortTreesByName t.children) ++ reachNames rest)
termination_by sizeOf ts
decreasing_by
  · rw [sizeOf_sortTreesByName]
    simp only [List.cons.sizeOf_spec]
    exact lt_of_lt_of_le (sizeOf_children_lt_sizeOf _) (by omega)
  · simp only [List.cons.sizeOf_spec]
    omega

/-- Workflow status values. Modelled from the spec: the status constants
and the `BaseNode.Status` accessor are referenced but absent from the
visible source; the spec gives the value set {Stopped, Running, Paused}. -/
inductive WStatus where
  | StatusStopped : WStatus
  | StatusRunning : WStatus
  | StatusPaused : WStatus
deriving DecidableEq, Repr

/-- Events the workflow publishes, with the workflow name payload. -/
inductive WEvent where
  | started : String → WEvent
  | paused : String → WEvent
  | stopped : String → WEvent
  | errClosing : String → WEvent
deriving DecidableEq, Repr

/-- Workflow state relevant to the claims: the root node's children (as
name trees), the name registry, the mirrored status, and the workflow
name. The collaborators (event emitter, closer, task factory) are
external; events emitted by an operation are returned alongside. -/
structure Workflow where
  bnChildren : List NTree
  ns : List (String × NTree)
  status : WStatus
  name : String
deriving Repr

/-- Workflow.Status / BaseNode.Status. Modelled from the spec: reads the
root node's tracked status field under lock. -/
def Workflow.Status (w : Workflow) : WStatus :=
  w.status

/-- Workflow.IndexNodes: under the lock, walks the root's children and
indexes every reachable node into the existing registry. -/
def Workflow.IndexNodes (w : Workflow) : Workflow :=
  { w with ns := indexNodesFunc (sortTreesByName w.bnChildren) w.ns }

/-- ErrNodeNotFound as in the source. -/
def ErrNodeNotFound : String := "astiencoder: node.not.found"

/-- Workflow.Node: registry lookup; a missing name yields
`ErrNodeNotFound`. Returns the (unchanged) workflow state alongside. -/
def Workflow.Node (w : Workflow) (k : String) :
    Except String NTree × Workflow :=
  match mapLookup k w.ns with
  | some n => (Except.ok n, w)
  | none => (Except.error ErrNodeNotFound, w)

/-- Workflow.Pause: returns unchanged with no events unless the status is
Running; otherwise pauses every node (node-specific, external to this
core), sets the status to Paused under lock, and emits one paused event. -/
def Workflow.Pause (w : Workflow) : Workflow × List WEvent :=
  if w.Status ≠ WStatus.StatusRunning then (w, [])
  else ({ w with status := WStatus.StatusPaused }, [WEvent.paused w.name])

/-- Workflow.Continue: returns unchanged with no events unless the status
is Paused; otherwise resumes every node, sets the status to Running under
lock, and emits one started event. -/
def Workflow.Continue (w : Workflow) : Workflow × List WEvent :=
  if w.Status ≠ WStatus.StatusPaused then (w, [])
  else ({ w with status := WStatus.StatusRunning }, [WEvent.started w.name])

theorem mapLookup_upsert (k k1 : String) (v : NTree)
    (m : List (String × NTree)) :
    mapLookup k (mapUpsert k1 v m) =
      if k1 = k then some v else mapLookup k m := by
  induction m with
  | nil => simp [mapUpsert, mapLookup]
  | cons p rest ih =>
      obtain ⟨k2, v2⟩ := p
      by_cases h1 : k2 = k1
      · rw [show mapUpsert k1 v ((k2, v2) :: rest) = (k1, v) :: rest from by
          simp [mapUpsert, h1]]
        by_cases h2 : k1 = k <;> simp [mapLookup, h1, h2]
      · rw [show mapUpsert k1 v ((k2, v2) :: rest) =
            (k2, v2) :: mapUpsert k1 v rest from by simp [mapUpsert, h1]]
        by_cases h3 : k2 = k
        · subst h3
          have h2 : ¬k1 = k2 := fun hh => h1 hh.symm
          simp [mapLookup, h2]
        · simp [mapLookup, h3, ih]

theorem indexNodesFunc_lookup (k : String) (ts : List NTree)
    (m : List (String × NTree)) :
    (mapLookup k (indexNodesFunc ts m)).isSome ↔
      ((mapLookup k m).isSome ∨ k ∈ reachNames ts) := by
  induction ts, m using indexNodesFunc.induct with
  | case1 m => simp [indexNodesFunc, reachNames]
  | case2 m t rest ih1 ih2 =>
      rw [indexNodesFunc, reachNames]
      rw [ih2, ih1, mapLookup_upsert]
      by_cases h : t.name = k
      · simp [h]
      · have h2 : ¬k = t.name := fun hh => h hh.symm
        simp [h, h2]
        tauto

/-- C4 counterexample: with a registry still holding an entry for "z" and
a graph whose only reachable node is "a", `IndexNodes` leaves the stale
"z" entry in place — the registry is not rebuilt from scratch, so it does
not equal the set of reachable nodes. -/
theorem c4_counterexample :
    mapLookup "z"
      (Workflow.IndexNodes
        { bnChildren := [NTree.node "a" []]
          ns := [("z", NTree.node "z" [])]
          status := WStatus.StatusStopped
          name := "w" }).ns = some (NTree.node "z" []) ∧
    "z" ∉ reachNames (sortTreesByName [NTree.node "a" []]) ∧
    mapLookup "a"
      (Workflow.IndexNodes
        { bnChildren := [NTree.node "a" []]
          ns := [("z", NTree.node "z" [])]
          status := WStatus.StatusStopped
          name := "w" }).ns = some (NTree.node "a" []) := by
  refine ⟨?_, ?_, ?_⟩ <;>
    simp [Workflow.IndexNodes, indexNodesFunc, reachNames, sortTreesByName,
      insTreeSorted, mapUpsert, mapLookup, NTree.name, NTree.children]

/-- C4 amended: after `IndexNodes` returns, a name resolves in the
registry if and only if it resolved before the call or is reachable from
the root by the depth-first walk — every reachable node is (re)indexed,
but the registry is merged into rather than rebuilt, so entries whose
nodes are no longer reachable remain present. -/
theorem c4_index_nodes_merges (w : Workflow) (k : String) :
    (mapLookup k w.IndexNodes.ns).isSome ↔
      ((mapLookup k w.ns).isSome ∨
        k ∈ reachNames (sortTreesByName w.bnChildren)) :=
  indexNodesFunc_lookup k (sortTreesByName w.bnChildren) w.ns

/-- C7: `Workflow.Node` returns the registered node with no error exactly
when the name is present in the registry, returns the not-found error
exactly when it is absent, and leaves the workflow state unchanged. -/
theorem c7_node_lookup (w : Workflow) (k : String) :
    ((w.Node k).1 = Except.error ErrNodeNotFound ↔
      mapLookup k w.ns = none) ∧
    ((∃ n, (w.Node k).1 = Except.ok n) ↔ (mapLookup k w.ns).isSome) ∧
    (∀ n, mapLookup k w.ns = some n → (w.Node k).1 = Except.ok n) ∧
    (w.Node k).2 = w := by
  cases h : mapLookup k w.ns <;> simp [Workflow.Node, h]

/-- Witness for `c7_node_lookup`: with registry {"a"}, looking up "a"
succeeds with the registered node and looking up "z" fails not-found. -/
theorem c7_node_lookup_witness :
    ((Workflow.mk [NTree.node "a" []] [("a", NTree.node "a" [])]
        WStatus.StatusStopped "w").Node "a").1 =
      Except.ok (NTree.node "a" []) ∧
    ((Workflow.mk [NTree.node "a" []] [("a", NTree.node "a" [])]
        WStatus.StatusStopped "w").Node "z").1 =
      Except.error ErrNodeNotFound :=
  ⟨(c7_node_lookup (Workflow.mk [NTree.node "a" []]
      [("a", NTree.node "a" [])] WStatus.StatusStopped "w") "a").2.2.1
      (NTree.node "a" []) rfl,
   (c7_node_lookup (Workflow.mk [NTree.node "a" []]
      [("a", NTree.node "a" [])] WStatus.StatusStopped "w") "z").1.mpr rfl⟩

/-- C5: the workflow status machine over {Stopped, Running, Paused}:
`Pause` outside Running (e.g. in Stopped) changes nothing and emits no
event; `Pause` in Running moves to Paused and emits exactly one paused
event; `Continue` outside Paused is a no-op; `Continue` in Paused moves
back to Running and emits exactly one started event. -/
theorem c5_pause_continue (w : Workflow) :
    (w.status ≠ WStatus.StatusRunning → w.Pause = (w, [])) ∧
    (w.status = WStatus.StatusRunning →
      w.Pause.1.status = WStatus.StatusPaused ∧
      w.Pause.2 = [WEvent.paused w.name] ∧
      w.Pause.1.Continue.1.status = WStatus.StatusRunning ∧
      w.Pause.1.Continue.2 = [WEvent.started w.name]) ∧
    (w.status ≠ WStatus.StatusPaused → w.Continue = (w, [])) ∧
    (w.status = WStatus.StatusPaused →
      w.Continue.1.status = WStatus.StatusRunning ∧
      w.Continue.2 = [WEvent.started w.name]) := by
  refine ⟨fun h => ?_, fun h => ?_, fun h => ?_, fun h => ?_⟩ <;>
    simp [Workflow.Pause, Workflow.Continue, Workflow.Status, h]

/-- Witness for `c5_pause_continue`: a Running workflow pauses with one
paused event and continues back with one started event; a Stopped
workflow is unchanged by Pause. -/
theorem c5_pause_continue_witness :
    (Workflow.mk [] [] WStatus.StatusRunning "w").Pause.1.status =
      WStatus.StatusPaused ∧
    (Workflow.mk [] [] WStatus.StatusRunning "w").Pause.2 =
      [WEvent.paused "w"] ∧
    (Workflow.mk [] [] WStatus.StatusRunning "w").Pause.1.Continue.2 =
      [WEvent.started "w"] ∧
    (Workflow.mk [] [] WStatus.StatusStopped "w").Pause =
      (Workflow.mk [] [] WStatus.StatusStopped "w", []) :=
  ⟨((c5_pause_continue (Workflow.mk [] [] WStatus.StatusRunning "w")).2.1
      rfl).1,
   ((c5_pause_continue (Workflow.mk [] [] WStatus.StatusRunning "w")).2.1
      rfl).2.1,
   ((c5_pause_continue (Workflow.mk [] [] WStatus.StatusRunning "w")).2.1
      rfl).2.2.2,
   (c5_pause_continue (Workflow.mk [] [] WStatus.StatusStopped "w")).1
      (by simp)⟩

/-- Observable actions of the workflow start routine: spawning a tracked
sub-task (id, parent id), starting a node (name, its own task id, parent
task id), emitting an event, running a group callback (group index,
sub-task handle), waiting on a task, and calling the resource closer. -/
inductive WAction where
  | newSubTask : Nat → Nat → WAction
  | startNode : String → Nat → Nat → WAction
  | emit : WEvent → WAction
  | callbackRun : Nat → Nat → WAction
  | waitTask : Nat → WAction
  | closeCall : WAction
deriving DecidableEq, Repr

/-- Accumulator loop for `groupOf`. -/
def groupOfAux (gs : List WorkflowStartGroup) (n : String) (i : Nat)
    (acc : Option Nat) : Option Nat :=
  match gs with
  | [] => acc
  | g :: rest => groupOfAux rest n (i + 1) (if n ∈ g.Nodes then some i else acc)

/-- Index in `Groups` of the group a node is assigned to: the `ngs` map is
written group by group, so the LAST group containing the name wins. -/
def groupOf (gs : List WorkflowStartGroup) (n : String) : Option Nat :=
  groupOfAux gs n 0 none

/-- Nodes of the workflow's node list collected into group `i`, in node
list order. -/
def groupNodes (ns : List String) (gs : List WorkflowStartGroup) (i : Nat) :
    List String :=
  ns.filter fun n => groupOf gs n == some i

/-- Starting a list of nodes under task `parent`: each node's `Start`
calls the supplied factory once, creating its own sub-task. `c` is the
next fresh task id; returns the next counter and the actions. -/
def startNodesActs (parent : Nat) (names : List String) (c : Nat) :
    Nat × List WAction :=
  match names with
  | [] => (c, [])
  | nm :: rest =>
      let r := startNodesActs parent rest (c + 1)
      (r.1, WAction.startNode nm c parent :: r.2)

/-- `StartNodesInSubTask` for each group in order: one fresh sub-task of
the top task per group, then the group's nodes started under it. Returns
the final counter, the actions, and each group's sub-task id. -/
def groupsActs (ns : List String) (gs : List WorkflowStartGroup)
    (i count c : Nat) : Nat × List WAction × List Nat :=
  match count with
  | 0 => (c, [], [])
  | k + 1 =>
      let r1 := startNodesActs c (groupNodes ns gs i) (c + 1)
      let r2 := groupsActs ns gs (i + 1) k r1.1
      (r2.1, (WAction.newSubTask c 0 :: r1.2) ++ r2.2.1, c :: r2.2.2)

/-- Callback loop: each group with a callback gets it invoked with that
group's sub-task handle. -/
def callbackActs (gs : List WorkflowStartGroup) (gts : List Nat) (i : Nat) :
    List WAction :=
  match gs, gts with
  | g :: grest, t :: trest =>
      (if g.Callback then [WAction.callbackRun i t] else [])
        ++ callbackActs grest trest (i + 1)
  | _, _ => []

/-- Trace of the body of `Workflow.start`'s exec function, in program
order (top-level task id 0; fresh sub-task ids count up from 1): start
each ungrouped node under its own sub-task, start each group's nodes in a
shared sub-task, emit the started event, run the group callbacks, wait
for the top task, call the resource closer (emitting a wrapped error
event if it fails), and emit the stopped event. -/
def workflowStartTrace (name : String) (ns : List String)
    (o : WorkflowStartOptions) (closeErr : Bool) : List WAction :=
  let ung := startNodesActs 0 (ns.filter fun n => groupOf o.Groups n == none) 1
  let grp := groupsActs ns o.Groups 0 o.Groups.length ung.1
  ung.2 ++ grp.2.1
    ++ [WAction.emit (WEvent.started name)]
    ++ callbackActs o.Groups grp.2.2 0
    ++ [WAction.waitTask 0]
    ++ [WAction.closeCall]
    ++ (if closeErr then [WAction.emit (WEvent.errClosing name)] else [])
    ++ [WAction.emit (WEvent.stopped name)]

theorem mem_startNodesActs {parent : Nat} :
    ∀ {names : List String} {c : Nat} {a : WAction},
      a ∈ (startNodesActs parent names c).2 →
      ∃ nm tid, a = WAction.startNode nm tid parent := by
  intro names
  induction names with
  | nil =>
      intro c a h
      simp [startNodesActs] at h
  | cons nm rest ih =>
      intro c a h
      simp only [startNodesActs, List.mem_cons] at h
      rcases h with rfl | h
      · exact ⟨nm, c, rfl⟩
      · exact ih h

theorem startNodesActs_covers {parent : Nat} :
    ∀ {names : List String} (c : Nat) {nm : String}, nm ∈ names →
      ∃ tid, WAction.startNode nm tid parent ∈
        (startNodesActs parent names c).2 := by
  intro names
  induction names with
  | nil =>
      intro c nm h
      simp at h
  | cons x rest ih =>
      intro c nm h
      rcases List.mem_cons.mp h with rfl | h'
      · exact ⟨c, by simp [startNodesActs]⟩
      · obtain ⟨tid, htid⟩ := ih (c + 1) h'
        exact ⟨tid, by simp only [startNodesActs, List.mem_cons]; exact Or.inr htid⟩

theorem mem_groupsActs {ns : List String} {gs : List WorkflowStartGroup} :
    ∀ {count i c : Nat} {a : WAction},
      a ∈ (groupsActs ns gs i count c).2.1 →
      (∃ id, a = WAction.newSubTask id 0) ∨
      (∃ nm tid p, a = WAction.startNode nm tid p) := by
  intro count
  induction count with
  | zero =>
      intro i c a h
      simp [groupsActs] at h
  | succ k ih =>
      intro i c a h
      simp only [groupsActs, List.append_eq, List.cons_append,
        List.mem_cons, List.mem_append] at h
      rcases h with rfl | h | h
      · exact Or.inl ⟨c, rfl⟩
      · obtain ⟨nm, tid, rfl⟩ := mem_startNodesActs h
        exact Or.inr ⟨nm, tid, _, rfl⟩
      · exact ih h

theorem groupsActs_gts_length {ns : List String}
    {gs : List WorkflowStartGroup} :
    ∀ (count i c : Nat), (groupsActs ns gs i count c).2.2.length = count := by
  intro count
  induction count with
  | zero => intro i c; simp [groupsActs]
  | succ k ih => intro i c; simp [groupsActs, ih]

theorem groupsActs_spec {ns : List String} {gs : List WorkflowStartGroup} :
    ∀ (count i c j : Nat), j < count →
      ∃ gt, (groupsActs ns gs i count c).2.2[j]? = some gt ∧
        WAction.newSubTask gt 0 ∈ (groupsActs ns gs i count c).2.1 ∧
        (∀ nm ∈ groupNodes ns gs (i + j), ∃ tid,
          WAction.startNode nm tid gt ∈ (groupsActs ns gs i count c).2.1) := by
  intro count
  induction count with
  | zero =>
      intro i c j h
      omega
  | succ k ih =>
      intro i c j h
      cases j with
      | zero =>
          refine ⟨c, by simp [groupsActs], by simp [groupsActs], ?_⟩
          intro nm hnm
          obtain ⟨tid, htid⟩ :=
            @startNodesActs_covers c _ (c + 1) _ (by simpa using hnm)
          refine ⟨tid, ?_⟩
          simp only [groupsActs, List.cons_append, List.mem_cons,
            List.mem_append]
          exact Or.inr (Or.inl htid)
      | succ j' =>
          have h' : j' < k := by omega
          obtain ⟨gt, h1, h2, h3⟩ :=
            ih (i + 1) ((startNodesActs c (groupNodes ns gs i) (c + 1)).1) j' h'
          refine ⟨gt, by simpa [groupsActs] using h1, ?_, ?_⟩
          · simp only [groupsActs, List.cons_append, List.mem_cons,
              List.mem_append]
            exact Or.inr (Or.inr h2)
          · intro nm hnm
            have hidx : i + (j' + 1) = (i + 1) + j' := by omega
            obtain ⟨tid, htid⟩ := h3 nm (by rwa [hidx] at hnm)
            refine ⟨tid, ?_⟩
            simp only [groupsActs, List.cons_append, List.mem_cons,
              List.mem_append]
            exact Or.inr (Or.inr htid)

theorem mem_callbackActs :
    ∀ {gs : List WorkflowStartGroup} {gts : List Nat} {i : Nat} {a : WAction},
      a ∈ callbackActs gs gts i → ∃ g t, a = WAction.callbackRun g t := by
  intro gs
  induction gs with
  | nil =>
      intro gts i a h
      simp [callbackActs] at h
  | cons g grest ih =>
      intro gts i a h
      cases gts with
      | nil => simp [callbackActs] at h
      | cons t trest =>
          simp only [callbackActs, List.mem_append] at h
          rcases h with h | h
          · by_cases hc : g.Callback <;> simp [hc] at h
            exact ⟨i, t, h⟩
          · exact ih h

theorem callbackActs_covers :
    ∀ {gs : List WorkflowStartGroup} {gts : List Nat} (i : Nat) {j : Nat}
      {g : WorkflowStartGroup} {gt : Nat},
      gs[j]? = some g → gts[j]? = some gt → g.Callback = true →
      WAction.callbackRun (i + j) gt ∈ callbackActs gs gts i := by
  intro gs
  induction gs with
  | nil =>
      intro gts i j g gt hg _ _
      simp at hg
  | cons g0 grest ih =>
      intro gts i j g gt hg hgt hc
      cases gts with
      | nil => simp at hgt
      | cons t0 trest =>
          cases j with
          | zero =>
              simp at hg hgt
              subst hg
              subst hgt
              simp only [callbackActs, List.mem_append, hc]
              exact Or.inl (by simp)
          | succ j' =>
              simp at hg hgt
              have := ih (i + 1) hg hgt hc
              simp only [callbackActs, List.mem_append]
              refine Or.inr ?_
              have hidx : i + (j' + 1) = (i + 1) + j' := by omega
              rwa [hidx]

/-- Shape of the actions before the wait: node starts, sub-task spawns,
the started event, and callback runs. -/
theorem wsPre_shape (name : String) (U G CB : List WAction)
    (hU : ∀ a ∈ U, ∃ nm tid p, a = WAction.startNode nm tid p)
    (hG : ∀ a ∈ G, (∃ id, a = WAction.newSubTask id 0) ∨
      (∃ nm tid p, a = WAction.startNode nm tid p))
    (hCB : ∀ a ∈ CB, ∃ g t, a = WAction.callbackRun g t) :
    ∀ a ∈ U ++ G ++ [WAction.emit (WEvent.started name)] ++ CB,
      (∃ nm tid p, a = WAction.startNode nm tid p) ∨
      (∃ id, a = WAction.newSubTask id 0) ∨
      (∃ g t, a = WAction.callbackRun g t) ∨
      a = WAction.emit (WEvent.started name) := by
  intro a h
  simp only [List.mem_append, List.mem_singleton] at h
  rcases h with ((h | h) | h) | h
  · exact Or.inl (hU a h)
  · rcases hG a h with h' | h'
    · exact Or.inr (Or.inl h')
    · exact Or.inl h'
  · exact Or.inr (Or.inr (Or.inr h))
  · exact Or.inr (Or.inr (Or.inl (hCB a h)))

/-- Ordering and uniqueness facts about the canonical start trace shape. -/
theorem wsTrace_facts (name : String) (U G CB ERR : List WAction)
    (hU : ∀ a ∈ U, ∃ nm tid p, a = WAction.startNode nm tid p)
    (hG : ∀ a ∈ G, (∃ id, a = WAction.newSubTask id 0) ∨
      (∃ nm tid p, a = WAction.startNode nm tid p))
    (hCB : ∀ a ∈ CB, ∃ g t, a = WAction.callbackRun g t)
    (hERR : ∀ a ∈ ERR, a = WAction.emit (WEvent.errClosing name)) :
    (U ++ G ++ [WAction.emit (WEvent.started name)] ++ CB
        ++ [WAction.waitTask 0] ++ [WAction.closeCall] ++ ERR
        ++ [WAction.emit (WEvent.stopped name)]).count WAction.closeCall
      = 1 ∧
    occursBefore
      (U ++ G ++ [WAction.emit (WEvent.started name)] ++ CB
        ++ [WAction.waitTask 0] ++ [WAction.closeCall] ++ ERR
        ++ [WAction.emit (WEvent.stopped name)])
      (WAction.waitTask 0) WAction.closeCall ∧
    WAction.emit (WEvent.stopped name) ∈
      (U ++ G ++ [WAction.emit (WEvent.started name)] ++ CB
        ++ [WAction.waitTask 0] ++ [WAction.closeCall] ++ ERR
        ++ [WAction.emit (WEvent.stopped name)]) ∧
    occursBefore
      (U ++ G ++ [WAction.emit (WEvent.started name)] ++ CB
        ++ [WAction.waitTask 0] ++ [WAction.closeCall] ++ ERR
        ++ [WAction.emit (WEvent.stopped name)])
      WAction.closeCall (WAction.emit (WEvent.stopped name)) := by
  have hpre := wsPre_shape name U G CB hU hG hCB
  have hclPre : WAction.closeCall ∉
      U ++ G ++ [WAction.emit (WEvent.started name)] ++ CB := by
    intro h
    rcases hpre _ h with ⟨_, _, _, hh⟩ | ⟨_, hh⟩ | ⟨_, _, hh⟩ | hh <;>
      exact WAction.noConfusion hh
  have hstPre : WAction.emit (WEvent.stopped name) ∉
      U ++ G ++ [WAction.emit (WEvent.started name)] ++ CB := by
    intro h
    rcases hpre _ h with ⟨_, _, _, hh⟩ | ⟨_, hh⟩ | ⟨_, _, hh⟩ | hh
    · exact WAction.noConfusion hh
    · exact WAction.noConfusion hh
    · exact WAction.noConfusion hh
    · exact WEvent.noConfusion (WAction.emit.inj hh)
  have hstERR : WAction.emit (WEvent.stopped name) ∉ ERR := by
    intro h
    exact WEvent.noConfusion (WAction.emit.inj (hERR _ h))
  refine ⟨?_, ?_, ?_, ?_⟩
  · rw [show U ++ G ++ [WAction.emit (WEvent.started name)] ++ CB
        ++ [WAction.waitTask 0] ++ [WAction.closeCall] ++ ERR
        ++ [WAction.emit (WEvent.stopped name)] =
      (U ++ G ++ [WAction.emit (WEvent.started name)] ++ CB)
        ++ ([WAction.waitTask 0] ++ [WAction.closeCall] ++ ERR
          ++ [WAction.emit (WEvent.stopped name)]) from by
        simp [List.append_assoc]]
    rw [List.count_append]
    rw [List.count_eq_zero.mpr hclPre]
    have hclERR : WAction.closeCall ∉ ERR := by
      intro h
      exact WAction.noConfusion (hERR _ h)
    simp only [List.count_append, List.count_eq_zero.mpr hclERR]
    simp [List.count_cons]
  · rw [show U ++ G ++ [WAction.emit (WEvent.started name)] ++ CB
        ++ [WAction.waitTask 0] ++ [WAction.closeCall] ++ ERR
        ++ [WAction.emit (WEvent.stopped name)] =
      ((U ++ G ++ [WAction.emit (WEvent.started name)] ++ CB)
          ++ [WAction.waitTask 0])
        ++ ([WAction.closeCall] ++ ERR
          ++ [WAction.emit (WEvent.stopped name)]) from by
        simp [List.append_assoc]]
    refine occursBefore_append (by simp) ?_ (by simp)
    intro h
    rcases List.mem_append.mp h with h | h
    · exact hclPre h
    · simp at h
  · simp
  · rw [show U ++ G ++ [WAction.emit (WEvent.started name)] ++ CB
        ++ [WAction.waitTask 0] ++ [WAction.closeCall] ++ ERR
        ++ [WAction.emit (WEvent.stopped name)] =
      ((U ++ G ++ [WAction.emit (WEvent.started name)] ++ CB)
          ++ [WAction.waitTask 0] ++ [WAction.closeCall] ++ ERR)
        ++ [WAction.emit (WEvent.stopped name)] from by
        simp [List.append_assoc]]
    refine occursBefore_append ?_ ?_ (by simp)
    · simp
    · intro h
      rcases List.mem_append.mp h with h | h
      · rcases List.mem_append.mp h with h | h
        · rcases List.mem_append.mp h with h | h
          · exact hstPre h
          · simp at h
        · simp at h
      · exact hstERR h

/-- Ordering facts for the error branch of the close step. -/
theorem wsTrace_err_facts (name : String) (U G CB : List WAction)
    (hU : ∀ a ∈ U, ∃ nm tid p, a = WAction.startNode nm tid p)
    (hG : ∀ a ∈ G, (∃ id, a = WAction.newSubTask id 0) ∨
      (∃ nm tid p, a = WAction.startNode nm tid p))
    (hCB : ∀ a ∈ CB, ∃ g t, a = WAction.callbackRun g t) :
    occursBefore
      (U ++ G ++ [WAction.emit (WEvent.started name)] ++ CB
        ++ [WAction.waitTask 0] ++ [WAction.closeCall]
        ++ [WAction.emit (WEvent.errClosing name)]
        ++ [WAction.emit (WEvent.stopped name)])
      WAction.closeCall (WAction.emit (WEvent.errClosing name)) ∧
    occursBefore
      (U ++ G ++ [WAction.emit (WEvent.started name)] ++ CB
        ++ [WAction.waitTask 0] ++ [WAction.closeCall]
        ++ [WAction.emit (WEvent.errClosing name)]
        ++ [WAction.emit (WEvent.stopped name)])
      (WAction.emit (WEvent.errClosing name))
      (WAction.emit (WEvent.stopped name)) := by
  have hpre := wsPre_shape name U G CB hU hG hCB
  have herrPre : WAction.emit (WEvent.errClosing name) ∉
      U ++ G ++ [WAction.emit (WEvent.started name)] ++ CB := by
    intro h
    rcases hpre _ h with ⟨_, _, _, hh⟩ | ⟨_, hh⟩ | ⟨_, _, hh⟩ | hh
    · exact WAction.noConfusion hh
    · exact WAction.noConfusion hh
    · exact WAction.noConfusion hh
    · exact WEvent.noConfusion (WAction.emit.inj hh)
  have hstPre : WAction.emit (WEvent.stopped name) ∉
      U ++ G ++ [WAction.emit (WEvent.started name)] ++ CB := by
    intro h
    rcases hpre _ h with ⟨_, _, _, hh⟩ | ⟨_, hh⟩ | ⟨_, _, hh⟩ | hh
    · exact WAction.noConfusion hh
    · exact WAction.noConfusion hh
    · exact WAction.noConfusion hh
    · exact WEvent.noConfusion (WAction.emit.inj hh)
  constructor
  · rw [show U ++ G ++ [WAction.emit (WEvent.started name)] ++ CB
        ++ [WAction.waitTask 0] ++ [WAction.closeCall]
        ++ [WAction.emit (WEvent.errClosing name)]
        ++ [WAction.emit (WEvent.stopped name)] =
      (U ++ G ++ [WAction.emit (WEvent.started name)] ++ CB
          ++ [WAction.waitTask 0] ++ [WAction.closeCall])
        ++ ([WAction.emit (WEvent.errClosing name)]
          ++ [WAction.emit (WEvent.stopped name)]) from by
        simp [List.append_assoc]]
    refine occursBefore_append (by simp) ?_ (by simp)
    intro h
    rcases List.mem_append.mp h with h | h
    · rcases List.mem_append.mp h with h | h
      · exact herrPre h
      · simp at h
    · simp at h
  · rw [show U ++ G ++ [WAction.emit (WEvent.started name)] ++ CB
        ++ [WAction.waitTask 0] ++ [WAction.closeCall]
        ++ [WAction.emit (WEvent.errClosing name)]
        ++ [WAction.emit (WEvent.stopped name)] =
      (U ++ G ++ [WAction.emit (WEvent.started name)] ++ CB
          ++ [WAction.waitTask 0] ++ [WAction.closeCall]
          ++ [WAction.emit (WEvent.errClosing name)])
        ++ [WAction.emit (WEvent.stopped name)] from by
        simp [List.append_assoc]]
    refine occursBefore_append (by simp) ?_ (by simp)
    intro h
    rcases List.mem_append.mp h with h | h
    · rcases List.mem_append.mp h with h | h
      · rcases List.mem_append.mp h with h | h
        · exact hstPre h
        · simp at h
      · simp at h
    · simp at h

theorem ws_hU (ns : List String) (o : WorkflowStartOptions) :
    ∀ a ∈ (startNodesActs 0
        (ns.filter fun n => groupOf o.Groups n == none) 1).2,
      ∃ nm tid p, a = WAction.startNode nm tid p := by
  intro a h
  obtain ⟨nm, tid, rfl⟩ := mem_startNodesActs h
  exact ⟨nm, tid, 0, rfl⟩

theorem ws_hG (ns : List String) (o : WorkflowStartOptions) :
    ∀ a ∈ (groupsActs ns o.Groups 0 o.Groups.length
        (startNodesActs 0
          (ns.filter fun n => groupOf o.Groups n == none) 1).1).2.1,
      (∃ id, a = WAction.newSubTask id 0) ∨
      (∃ nm tid p, a = WAction.startNode nm tid p) :=
  fun _ h => mem_groupsActs h

theorem ws_hCB (ns : List String) (o : WorkflowStartOptions) :
    ∀ a ∈ callbackActs o.Groups
        (groupsActs ns o.Groups 0 o.Groups.length
          (startNodesActs 0
            (ns.filter fun n => groupOf o.Groups n == none) 1).1).2.2 0,
      ∃ g t, a = WAction.callbackRun g t :=
  fun _ h => mem_callbackActs h

/-- C6: in every run of the workflow start routine, the resource closer is
invoked exactly once, after the top-level wait; when it fails, an error
event wrapping the failure with the workflow name is emitted after the
close and before the stopped event; and the workflow-stopped event is
published after the close regardless of the closer's outcome. -/
theorem c6_closer_and_stopped (name : String) (ns : List String)
    (o : WorkflowStartOptions) (closeErr : Bool) :
    (workflowStartTrace name ns o closeErr).count WAction.closeCall = 1 ∧
    occursBefore (workflowStartTrace name ns o closeErr)
      (WAction.waitTask 0) WAction.closeCall ∧
    (closeErr = true →
      occursBefore (workflowStartTrace name ns o closeErr)
        WAction.closeCall (WAction.emit (WEvent.errClosing name)) ∧
      occursBefore (workflowStartTrace name ns o closeErr)
        (WAction.emit (WEvent.errClosing name))
        (WAction.emit (WEvent.stopped name))) ∧
    WAction.emit (WEvent.stopped name) ∈
      workflowStartTrace name ns o closeErr ∧
    occursBefore (workflowStartTrace name ns o closeErr)
      WAction.closeCall (WAction.emit (WEvent.stopped name)) := by
  cases closeErr with
  | false =>
      obtain ⟨h1, h2, h3, h4⟩ :=
        wsTrace_facts name _ _ _ [] (ws_hU ns o) (ws_hG ns o) (ws_hCB ns o)
          (by simp)
      exact ⟨h1, h2, fun h => (Bool.false_ne_true h).elim, h3, h4⟩
  | true =>
      obtain ⟨h1, h2, h3, h4⟩ :=
        wsTrace_facts name _ _ _ [WAction.emit (WEvent.errClosing name)]
          (ws_hU ns o) (ws_hG ns o) (ws_hCB ns o) (by simp)
      obtain ⟨h5, h6⟩ :=
        wsTrace_err_facts name _ _ _ (ws_hU ns o) (ws_hG ns o) (ws_hCB ns o)
      exact ⟨h1, h2, fun _ => ⟨h5, h6⟩, h3, h4⟩

/-- Witness for `c6_closer_and_stopped` at a concrete failing run. -/
theorem c6_closer_and_stopped_witness :
    (workflowStartTrace "w" ["a"] ⟨false, []⟩ true).count
      WAction.closeCall = 1 ∧
    occursBefore (workflowStartTrace "w" ["a"] ⟨false, []⟩ true)
      WAction.closeCall (WAction.emit (WEvent.errClosing "w")) ∧
    occursBefore (workflowStartTrace "w" ["a"] ⟨false, []⟩ true)
      WAction.closeCall (WAction.emit (WEvent.stopped "w")) :=
  ⟨(c6_closer_and_stopped "w" ["a"] ⟨false, []⟩ true).1,
   ((c6_closer_and_stopped "w" ["a"] ⟨false, []⟩ true).2.2.1 rfl).1,
   (c6_closer_and_stopped "w" ["a"] ⟨false, []⟩ true).2.2.2.2⟩

/-- Every node start in the trace happens before the started event. -/
theorem wsTrace_start_before_started (name : String) (U G CB ERR : List WAction)
    (hU : ∀ a ∈ U, ∃ nm tid p, a = WAction.startNode nm tid p)
    (hG : ∀ a ∈ G, (∃ id, a = WAction.newSubTask id 0) ∨
      (∃ nm tid p, a = WAction.startNode nm tid p))
    (hCB : ∀ a ∈ CB, ∃ g t, a = WAction.callbackRun g t)
    (hERR : ∀ a ∈ ERR, a = WAction.emit (WEvent.errClosing name)) :
    ∀ nm tid p, WAction.startNode nm tid p ∈
        (U ++ G ++ [WAction.emit (WEvent.started name)] ++ CB
          ++ [WAction.waitTask 0] ++ [WAction.closeCall] ++ ERR
          ++ [WAction.emit (WEvent.stopped name)]) →
      occursBefore
        (U ++ G ++ [WAction.emit (WEvent.started name)] ++ CB
          ++ [WAction.waitTask 0] ++ [WAction.closeCall] ++ ERR
          ++ [WAction.emit (WEvent.stopped name)])
        (WAction.startNode nm tid p) (WAction.emit (WEvent.started name)) := by
  intro nm tid p hmem
  have e : U ++ G ++ [WAction.emit (WEvent.started name)] ++ CB
      ++ [WAction.waitTask 0] ++ [WAction.closeCall] ++ ERR
      ++ [WAction.emit (WEvent.stopped name)] =
    (U ++ G) ++ ([WAction.emit (WEvent.started name)] ++ CB
      ++ [WAction.waitTask 0] ++ [WAction.closeCall] ++ ERR
      ++ [WAction.emit (WEvent.stopped name)]) := by
    simp [List.append_assoc]
  rw [e] at hmem ⊢
  have hnot2 : WAction.startNode nm tid p ∉
      [WAction.emit (WEvent.started name)] ++ CB
        ++ [WAction.waitTask 0] ++ [WAction.closeCall] ++ ERR
        ++ [WAction.emit (WEvent.stopped name)] := by
    intro h
    simp only [List.mem_append, List.mem_singleton] at h
    rcases h with ((((h | h) | h) | h) | h) | h
    · exact WAction.noConfusion h
    · rcases hCB _ h with ⟨g, t, hh⟩
      exact WAction.noConfusion hh
    · exact WAction.noConfusion h
    · exact WAction.noConfusion h
    · exact WAction.noConfusion (hERR _ h)
    · exact WAction.noConfusion h
  have ha : WAction.startNode nm tid p ∈ U ++ G :=
    (List.mem_append.mp hmem).resolve_right hnot2
  refine occursBefore_append ha ?_ (by simp)
  intro h
  rcases List.mem_append.mp h with h | h
  · rcases hU _ h with ⟨_, _, _, hh⟩
    exact WAction.noConfusion hh
  · rcases hG _ h with ⟨_, hh⟩ | ⟨_, _, _, hh⟩ <;> exact WAction.noConfusion hh

/-- Every callback run in the trace happens after the started event and
before the top-level wait. -/
theorem wsTrace_callback_window (name : String) (U G CB ERR : List WAction)
    (hU : ∀ a ∈ U, ∃ nm tid p, a = WAction.startNode nm tid p)
    (hG : ∀ a ∈ G, (∃ id, a = WAction.newSubTask id 0) ∨
      (∃ nm tid p, a = WAction.startNode nm tid p))
    (hCB : ∀ a ∈ CB, ∃ g t, a = WAction.callbackRun g t)
    (hERR : ∀ a ∈ ERR, a = WAction.emit (WEvent.errClosing name)) :
    ∀ g t, WAction.callbackRun g t ∈
        (U ++ G ++ [WAction.emit (WEvent.started name)] ++ CB
          ++ [WAction.waitTask 0] ++ [WAction.closeCall] ++ ERR
          ++ [WAction.emit (WEvent.stopped name)]) →
      occursBefore
        (U ++ G ++ [WAction.emit (WEvent.started name)] ++ CB
          ++ [WAction.waitTask 0] ++ [WAction.closeCall] ++ ERR
          ++ [WAction.emit (WEvent.stopped name)])
        (WAction.emit (WEvent.started name)) (WAction.callbackRun g t) ∧
      occursBefore
        (U ++ G ++ [WAction.emit (WEvent.started name)] ++ CB
          ++ [WAction.waitTask 0] ++ [WAction.closeCall] ++ ERR
          ++ [WAction.emit (WEvent.stopped name)])
        (WAction.callbackRun g t) (WAction.waitTask 0) := by
  intro g t hmem
  have hcbNotL1 : WAction.callbackRun g t ∉
      U ++ G ++ [WAction.emit (WEvent.started name)] := by
    intro h
    simp only [List.mem_append, List.mem_singleton] at h
    rcases h with (h | h) | h
    · rcases hU _ h with ⟨_, _, _, hh⟩
      exact WAction.noConfusion hh
    · rcases hG _ h with ⟨_, hh⟩ | ⟨_, _, _, hh⟩ <;> exact WAction.noConfusion hh
    · exact WAction.noConfusion h
  have hcbNotL2 : WAction.callbackRun g t ∉
      [WAction.waitTask 0] ++ [WAction.closeCall] ++ ERR
        ++ [WAction.emit (WEvent.stopped name)] := by
    intro h
    simp only [List.mem_append, List.mem_singleton] at h
    rcases h with ((h | h) | h) | h
    · exact WAction.noConfusion h
    · exact WAction.noConfusion h
    · exact WAction.noConfusion (hERR _ h)
    · exact WAction.noConfusion h
  constructor
  · have e : U ++ G ++ [WAction.emit (WEvent.started name)] ++ CB
        ++ [WAction.waitTask 0] ++ [WAction.closeCall] ++ ERR
        ++ [WAction.emit (WEvent.stopped name)] =
      (U ++ G ++ [WAction.emit (WEvent.started name)])
        ++ (CB ++ [WAction.waitTask 0] ++ [WAction.closeCall] ++ ERR
          ++ [WAction.emit (WEvent.stopped name)]) := by
      simp [List.append_assoc]
    rw [e] at hmem ⊢
    have hb2 : WAction.callbackRun g t ∈
        CB ++ [WAction.waitTask 0] ++ [WAction.closeCall] ++ ERR
          ++ [WAction.emit (WEvent.stopped name)] :=
      (List.mem_append.mp hmem).resolve_left hcbNotL1
    exact occursBefore_append (by simp) hcbNotL1 hb2
  · have e : U ++ G ++ [WAction.emit (WEvent.started name)] ++ CB
        ++ [WAction.waitTask 0] ++ [WAction.closeCall] ++ ERR
        ++ [WAction.emit (WEvent.stopped name)] =
      (U ++ G ++ [WAction.emit (WEvent.started name)] ++ CB)
        ++ ([WAction.waitTask 0] ++ [WAction.closeCall] ++ ERR
          ++ [WAction.emit (WEvent.stopped name)]) := by
      simp [List.append_assoc]
    rw [e] at hmem ⊢
    have ha : WAction.callbackRun g t ∈
        U ++ G ++ [WAction.emit (WEvent.started name)] ++ CB :=
      (List.mem_append.mp hmem).resolve_right hcbNotL2
    refine occursBefore_append ha ?_ (by simp)
    intro h
    rcases wsPre_shape name U G CB hU hG hCB _ h with
      ⟨_, _, _, hh⟩ | ⟨_, hh⟩ | ⟨_, _, hh⟩ | hh <;>
      exact WAction.noConfusion hh

/-- C8 counterexample: with one group {a} carrying a callback, the start
trace contains both the started event and the callback run, but the
callback does NOT occur before the started event — the started event is
emitted first, then the group callbacks are executed. -/
theorem c8_counterexample :
    WAction.callbackRun 0 1 ∈
      workflowStartTrace "w" ["a"] ⟨false, [⟨true, ["a"]⟩]⟩ false ∧
    WAction.emit (WEvent.started "w") ∈
      workflowStartTrace "w" ["a"] ⟨false, [⟨true, ["a"]⟩]⟩ false ∧
    occursBeforeB (workflowStartTrace "w" ["a"] ⟨false, [⟨true, ["a"]⟩]⟩ false)
      (WAction.callbackRun 0 1) (WAction.emit (WEvent.started "w")) = false ∧
    occursBeforeB (workflowStartTrace "w" ["a"] ⟨false, [⟨true, ["a"]⟩]⟩ false)
      (WAction.emit (WEvent.started "w")) (WAction.callbackRun 0 1) = true := by
  decide

/-- C8 amended: for each group the coordinator spawns one shared tracked
sub-unit, starts every node of the group under it, and invokes the
group's callback (if present) with that sub-unit handle; every node start
precedes the workflow-started event, and each callback runs after the
workflow-started event (not before it) and before the overall wait. -/
theorem c8_groups_and_callbacks (name : String) (ns : List String)
    (o : WorkflowStartOptions) (closeErr : Bool) :
    (∀ j, j < o.Groups.length →
      ∃ gt, WAction.newSubTask gt 0 ∈ workflowStartTrace name ns o closeErr ∧
        (∀ nm ∈ groupNodes ns o.Groups j, ∃ tid,
          WAction.startNode nm tid gt ∈
            workflowStartTrace name ns o closeErr) ∧
        (∀ g, o.Groups[j]? = some g → g.Callback = true →
          WAction.callbackRun j gt ∈
            workflowStartTrace name ns o closeErr)) ∧
    (∀ nm tid p,
      WAction.startNode nm tid p ∈ workflowStartTrace name ns o closeErr →
      occursBefore (workflowStartTrace name ns o closeErr)
        (WAction.startNode nm tid p)
        (WAction.emit (WEvent.started name))) ∧
    (∀ g t,
      WAction.callbackRun g t ∈ workflowStartTrace name ns o closeErr →
      occursBefore (workflowStartTrace name ns o closeErr)
        (WAction.emit (WEvent.started name)) (WAction.callbackRun g t) ∧
      occursBefore (workflowStartTrace name ns o closeErr)
        (WAction.callbackRun g t) (WAction.waitTask 0)) := by
  have hERR : ∀ a ∈ (if closeErr
        then [WAction.emit (WEvent.errClosing name)]
        else ([] : List WAction)),
      a = WAction.emit (WEvent.errClosing name) := by
    cases closeErr <;> simp
  refine ⟨?_, ?_, ?_⟩
  · intro j hj
    obtain ⟨gt, h1, h2, h3⟩ :=
      @groupsActs_spec ns o.Groups o.Groups.length 0
        ((startNodesActs 0
          (ns.filter fun n => groupOf o.Groups n == none) 1).1) j hj
    refine ⟨gt, ?_, ?_, ?_⟩
    · show WAction.newSubTask gt 0 ∈ _ ++ _ ++ _ ++ _ ++ _ ++ _ ++ _ ++ _
      simp only [List.mem_append]
      exact Or.inl (Or.inl (Or.inl (Or.inl (Or.inl (Or.inl (Or.inr h2))))))
    · intro nm hnm
      obtain ⟨tid, htid⟩ := h3 nm (by simpa using hnm)
      refine ⟨tid, ?_⟩
      show WAction.startNode nm tid gt ∈ _ ++ _ ++ _ ++ _ ++ _ ++ _ ++ _ ++ _
      simp only [List.mem_append]
      exact Or.inl (Or.inl (Or.inl (Or.inl (Or.inl (Or.inl (Or.inr htid))))))
    · intro g hg hcb
      have hc := callbackActs_covers 0 hg h1 hcb
      rw [Nat.zero_add] at hc
      show WAction.callbackRun j gt ∈ _ ++ _ ++ _ ++ _ ++ _ ++ _ ++ _ ++ _
      simp only [List.mem_append]
      exact Or.inl (Or.inl (Or.inl (Or.inl (Or.inr hc))))
  · exact wsTrace_start_before_started name _ _ _ _
      (ws_hU ns o) (ws_hG ns o) (ws_hCB ns o) hERR
  · exact wsTrace_callback_window name _ _ _ _
      (ws_hU ns o) (ws_hG ns o) (ws_hCB ns o) hERR

/-- Witness for `c8_groups_and_callbacks` at the concrete one-group run. -/
theorem c8_groups_and_callbacks_witness :
    occursBefore (workflowStartTrace "w" ["a"] ⟨false, [⟨true, ["a"]⟩]⟩ false)
      (WAction.emit (WEvent.started "w")) (WAction.callbackRun 0 1) ∧
    occursBefore (workflowStartTrace "w" ["a"] ⟨false, [⟨true, ["a"]⟩]⟩ false)
      (WAction.callbackRun 0 1) (WAction.waitTask 0) ∧
    occursBefore (workflowStartTrace "w" ["a"] ⟨false, [⟨true, ["a"]⟩]⟩ false)
      (WAction.startNode "a" 2 1) (WAction.emit (WEvent.started "w")) :=
  ⟨((c8_groups_and_callbacks "w" ["a"] ⟨false, [⟨true, ["a"]⟩]⟩ false).2.2
      0 1 (by decide)).1,
   ((c8_groups_and_callbacks "w" ["a"] ⟨false, [⟨true, ["a"]⟩]⟩ false).2.2
      0 1 (by decide)).2,
   (c8_groups_and_callbacks "w" ["a"] ⟨false, [⟨true, ["a"]⟩]⟩ false).2.1
      "a" 2 1 (by decide)⟩
